import Mathlib

/-!
Verification of the `ebook_secondbrain_pipeline` repository.

Strings are modelled as `List Char`.  Python string primitives
(`splitlines`, `strip`, `split`, `zfill`, `int`, …) are embedded first,
then the functions of `kindle_cleaner.py`, `epub_parser.py` and
`json_to_notion_page.py` are translated on top of them.  Exceptions
(`KeyError`, `ValueError`, `FileNotFoundError`, `OverflowError`) are
modelled by `Option`-valued results, `none` meaning the Python code
raises.
-/

set_option maxHeartbeats 1000000

/-- Python `str.isspace` character class (the whitespace characters
stripped by `str.strip` / `str.rstrip` and matched by `\s`). -/
def pyIsSpace (c : Char) : Bool :=
  [' ', '\t', '\n', '\r', '\x0b', '\x0c', '\x1c', '\x1d', '\x1e', '\x1f',
   '\x85', '\xa0', '\u1680', '\u2028', '\u2029', '\u202f', '\u205f', '\u3000'].contains c
  || (decide ('\u2000' ≤ c) && decide (c ≤ '\u200a'))

/-- Line-boundary characters of Python `str.splitlines`
(besides the two-character boundary `"\r\n"`). -/
def isLineBreakChar (c : Char) : Bool :=
  ['\n', '\r', '\x0b', '\x0c', '\x1c', '\x1d', '\x1e', '\x85', '\u2028', '\u2029'].contains c

/-- Worker for `pySplitlines`; `acc` holds the current line reversed. -/
def pySplitlinesAux : List Char → List Char → List (List Char)
  | [], acc => if acc.isEmpty then [] else [acc.reverse]
  | '\r' :: '\n' :: rest, acc => acc.reverse :: pySplitlinesAux rest []
  | c :: rest, acc =>
    if isLineBreakChar c then acc.reverse :: pySplitlinesAux rest []
    else pySplitlinesAux rest (c :: acc)

/-- Python `str.splitlines()`. -/
def pySplitlines (s : List Char) : List (List Char) :=
  pySplitlinesAux s []

/-- Python `str.lstrip()` (no argument: strip leading whitespace). -/
def lstripPy (s : List Char) : List Char :=
  s.dropWhile pyIsSpace

/-- Python `str.rstrip()` (no argument: strip trailing whitespace). -/
def rstripPy (s : List Char) : List Char :=
  (s.reverse.dropWhile pyIsSpace).reverse

/-- Python `str.strip()` (no argument: strip surrounding whitespace). -/
def stripPy (s : List Char) : List Char :=
  lstripPy (rstripPy s)

/-- Split at the first occurrence of `sep`: `some (before, after)`,
or `none` when `sep` does not occur. -/
def splitOnce (sep : Char) : List Char → Option (List Char × List Char)
  | [] => none
  | c :: rest =>
    if c == sep then some ([], rest)
    else match splitOnce sep rest with
         | none => none
         | some (pre, post) => some (c :: pre, post)

/-- Python `s.split(sep, 1)` for a one-character separator. -/
def pySplit1 (sep : Char) (s : List Char) : List (List Char) :=
  match splitOnce sep s with
  | none => [s]
  | some (a, b) => [a, b]

/-- Python `s.split(sep, 2)` for a one-character separator. -/
def pySplit2 (sep : Char) (s : List Char) : List (List Char) :=
  match splitOnce sep s with
  | none => [s]
  | some (a, b) => a :: pySplit1 sep b

/-- Digits of a decimal numeral to a natural number. -/
def natOfDigits (l : List Char) : Nat :=
  l.foldl (fun n c => n * 10 + (c.toNat - 48)) 0

/-- Python `int(s)`: optional surrounding whitespace, optional sign, then a
non-empty run of decimal digits; `none` models `ValueError`. -/
def pyInt (s : List Char) : Option Int :=
  match stripPy s with
  | [] => none
  | '+' :: ds =>
    if ds ≠ [] ∧ ds.all (·.isDigit) then some (natOfDigits ds) else none
  | '-' :: ds =>
    if ds ≠ [] ∧ ds.all (·.isDigit) then some (-(natOfDigits ds : Int)) else none
  | ds =>
    if ds.all (·.isDigit) then some (natOfDigits ds) else none

/-- Python `str.zfill(w)`: left-pad with `'0'` to width `w`,
keeping a leading sign in front of the padding. -/
def zfill (w : Nat) (s : List Char) : List Char :=
  if w ≤ s.length then s
  else match s with
    | '+' :: rest => '+' :: (List.replicate (w - s.length) '0' ++ rest)
    | '-' :: rest => '-' :: (List.replicate (w - s.length) '0' ++ rest)
    | _ => List.replicate (w - s.length) '0' ++ s

/-! Embedding of `kindle_cleaner.py`: timestamp normalization. -/

/-- The fixed 12-entry table of `normalize_timestamp` mapping German month
names to two-digit month numbers. -/
def germanMonths : List (List Char × List Char) :=
  [("Januar".data, "01".data), ("Februar".data, "02".data), ("März".data, "03".data),
   ("April".data, "04".data), ("Mai".data, "05".data), ("Juni".data, "06".data),
   ("Juli".data, "07".data), ("August".data, "08".data), ("September".data, "09".data),
   ("Oktober".data, "10".data), ("November".data, "11".data), ("Dezember".data, "12".data)]

/-- Dictionary lookup `months[month]`; `none` models `KeyError`. -/
def monthLookup (m : List Char) : Option (List Char) :=
  match germanMonths.find? (fun p => p.1 == m) with
  | some p => some p.2
  | none => none

/-- The first two destructuring steps of `normalize_timestamp`:
`_, rest = raw.split(",", 1)`; `rest = rest.strip()`;
`day, month, year_time = rest.split(" ", 2)`.  Returns the
day / month-name / "year time" groups, or `none` when an unpacking fails
(Python `ValueError`). -/
def tsGroups (raw : List Char) : Option (List Char × List Char × List Char) :=
  match pySplit1 ',' raw with
  | [_, rest0] =>
    match pySplit2 ' ' (stripPy rest0) with
    | [day, month, yearTime] => some (day, month, yearTime)
    | _ => none
  | _ => none

/-- Model of `normalize_timestamp` of `kindle_cleaner.py`.  After the destructuring
of `tsGroups`, the Python body is `year, time = year_time.split(" ", 1)` and
`iso = f"{year}-{months[month]}-{day.zfill(2)}T{time}"`.
`none` models an uncaught `ValueError`/`KeyError`. -/
def normalize_timestamp (raw : List Char) : Option (List Char) :=
  match tsGroups raw with
  | none => none
  | some (day, month, yearTime) =>
    match pySplit1 ' ' yearTime with
    | [year, time] =>
      match monthLookup month with
      | some mm => some (year ++ '-' :: mm ++ '-' :: zfill 2 day ++ 'T' :: time)
      | none => none
    | _ => none

/-!  Stable insertion sort, parametrised by a key function and a strict
Boolean comparison on keys.  It reproduces the result of Python's stable
`list.sort(key=...)`: an element is inserted after every earlier element
whose key is strictly smaller, and before the first element whose key is
not strictly smaller, so elements with equal keys keep their order. -/

/-- Insert `x` into `l`, skipping the longest prefix of elements whose key
is strictly below the key of `x`. -/
def insK {α β : Type} (k : α → β) (lt : β → β → Bool) (x : α) : List α → List α
  | [] => [x]
  | y :: ys => if lt (k y) (k x) then y :: insK k lt x ys else x :: y :: ys

/-- Stable insertion sort by the key `k` under the strict comparison `lt`. -/
def ssortK {α β : Type} (k : α → β) (lt : β → β → Bool) : List α → List α
  | [] => []
  | x :: xs => insK k lt x (ssortK k lt xs)

/-! Embedding of `kindle_cleaner.py`: page keys, regex helpers, record scanning. -/

/-- Model of `page_sort_key` of `kindle_cleaner.py`:
`float("inf")` (modelled as `none`) for a missing, empty or non-numeric
page, otherwise `int(page.split("-")[0])`. -/
def page_sort_key (page : Option (List Char)) : Option Int :=
  match page with
  | none => none
  | some p =>
    if p = [] then none
    else match pyInt (p.takeWhile (fun c => c ≠ '-')) with
         | some n => some n
         | none => none

/-- Comparison on page keys: `none` is `float("inf")`, larger than every
integer and tied with itself. -/
def ltKey : Option Int → Option Int → Bool
  | some x, some y => decide (x < y)
  | some _, none => true
  | none, _ => false

/-- The metadata-line marker `META_PREFIX = "- Deine Markierung"`. -/
def metaMarker : List Char := "- Deine Markierung".data

/-- The record separator `SEPARATOR = "=========="`. -/
def sepToken : List Char := "==========".data

/-- Model of `normalize_title` of `kindle_cleaner.py`:
`title.lstrip("﻿").strip()`. -/
def normalize_title (t : List Char) : List Char :=
  stripPy (t.dropWhile (fun c => c = '﻿'))

/-- Model of `re.search` of `PAGE_PATTERN = r"Seite\s+([\d\-]+)"`: at the leftmost
position where the literal `"Seite"` is followed by at least one whitespace
character and then at least one character from `[0-9-]`, the captured group
is the maximal such digit/dash run. -/
def pageFind : List Char → Option (List Char)
  | [] => none
  | c :: rest =>
    let s := c :: rest
    if "Seite".data.isPrefixOf s then
      let after := s.drop 5
      let ws := after.takeWhile pyIsSpace
      let ds := (after.drop ws.length).takeWhile (fun c => c.isDigit || c == '-')
      if ws ≠ [] ∧ ds ≠ [] then some ds else pageFind rest
    else pageFind rest

/-- Model of `re.search` of `TIMESTAMP_PATTERN = r"Hinzugefügt am (.+)$"` on a single
line (the metadata lines it is applied to contain no newline character):
the captured group is everything after the leftmost occurrence of the
literal `"Hinzugefügt am "` that is followed by at least one character. -/
def tsFind : List Char → Option (List Char)
  | [] => none
  | c :: rest =>
    let s := c :: rest
    if "Hinzugefügt am ".data.isPrefixOf s then
      let after := s.drop 15
      if after ≠ [] ∧ ¬ after.contains '\n' then some after else tsFind rest
    else tsFind rest

/-- The body-loop noise test of `parse_kindle_annotations`: a stripped body
line is dropped when it equals the separator, equals the record's title, or
starts with the metadata marker. -/
def isNoise (title s : List Char) : Bool :=
  s == sepToken || s == title || metaMarker.isPrefixOf s

/-- The inner `while` loop of `parse_kindle_annotations` (body extraction):
starting from the given suffix of the line list, walk over non-blank lines,
skipping noise lines and collecting the other stripped lines.  Returns the
collected lines and the number of lines consumed before the stop (the first
blank line or the end of input). -/
def bodyRun (title : List Char) : List (List Char) → (List (List Char) × Nat)
  | [] => ([], 0)
  | x :: xs =>
    let s := stripPy x
    if s = [] then ([], 0)
    else if isNoise title s then
      ((bodyRun title xs).1, (bodyRun title xs).2 + 1)
    else
      (s :: (bodyRun title xs).1, (bodyRun title xs).2 + 1)

/-- Python `"\n".join(lines)`. -/
def joinNL : List (List Char) → List Char
  | [] => []
  | [x] => x
  | x :: xs => x ++ '\n' :: joinNL xs

/-- One extracted highlight: the `{"text": ..., "page": ..., "timestamp": ...}`
dict appended by `parse_kindle_annotations`. -/
structure KindleNote where
  text : List Char
  page : Option (List Char)
  timestamp : Option (List Char)
deriving DecidableEq, Repr

/-- The parser's result type: `defaultdict(list)` in insertion order,
modelled as an association list from titles to note lists. -/
abbrev Grouped := List (List Char × List KindleNote)

/-- Python `grouped[title].append(entry)` on an insertion-ordered dict: append to
the existing key, or add the key at the end. -/
def appendNote (g : Grouped) (t : List Char) (e : KindleNote) : Grouped :=
  match g with
  | [] => [(t, [e])]
  | (t', es) :: rest =>
    if t' = t then (t', es ++ [e]) :: rest else (t', es) :: appendNote rest t e

/-- Lookup of a title's note list in a `Grouped` value (`[]` when absent). -/
def findNotes (g : Grouped) (t : List Char) : List KindleNote :=
  match g with
  | [] => []
  | (t', es) :: rest => if t' = t then es else findNotes rest t

/-- The outer `while i < len(lines) - 2` loop of `parse_kindle_annotations`,
written on the suffix of the line list starting at `i`.  A record needs a
non-empty normalized title line followed by a stripped line starting with
the metadata marker; otherwise the scan advances one line.  On a match the
page and raw timestamp are extracted from the metadata line, the timestamp
is normalized (an unparseable one raises: `none`), the body is read from
line `i+3` on, and a note with non-empty text is appended; the scan resumes
just past the body's terminating line.  The structural `fuel` argument
only bounds the number of iterations (each consumes at least one line). -/
def scanRecordsF (fuel : Nat) (g : Grouped) (l : List (List Char)) : Option Grouped :=
  match fuel, l with
  | fuel + 1, l0 :: l1 :: l2 :: rest =>
    let title := normalize_title l0
    let meta := stripPy l1
    if title = [] ∨ ¬ metaMarker.isPrefixOf meta then
      scanRecordsF fuel g (l1 :: l2 :: rest)
    else
      let page := pageFind meta
      let tsRes : Option (Option (List Char)) :=
        match tsFind meta with
        | none => some none
        | some rawTs =>
          match normalize_timestamp rawTs with
          | some ts => some (some ts)
          | none => none
      match tsRes with
      | none => none
      | some timestamp =>
        let text := stripPy (joinNL (bodyRun title rest).1)
        let g' := if text = [] then g else appendNote g title ⟨text, page, timestamp⟩
        scanRecordsF fuel g' (rest.drop ((bodyRun title rest).2 + 1))
  | _, _ => some g

/-- The outer loop with its fuel instantiated: since every iteration of the
Python loop advances `i` by at least one, a fuel equal to the number of
lines is never exhausted, so `scanRecords` computes exactly the loop. -/
def scanRecords (g : Grouped) (l : List (List Char)) : Option Grouped :=
  scanRecordsF l.length g l

/-- The final per-title sorting pass of `parse_kindle_annotations`:
`items.sort(key=lambda a: page_sort_key(a["page"]))` for every title. -/
def sortNotes (g : Grouped) : Grouped :=
  g.map (fun p => (p.1, ssortK (fun e => page_sort_key e.page) ltKey p.2))

/-- The grouping produced by `parse_kindle_annotations` before the final
per-title sort (`none` models an uncaught exception). -/
def parse_kindle_annotations_presort (text : List Char) : Option Grouped :=
  scanRecords [] ((pySplitlines text).map rstripPy)

/-- Model of `parse_kindle_annotations` of `kindle_cleaner.py`:
`lines = [line.rstrip() for line in text.splitlines()]`, the record scan,
then the stable per-title sort by page key.  `none` models an uncaught
exception (from `normalize_timestamp`). -/
def parse_kindle_annotations (text : List Char) : Option Grouped :=
  (parse_kindle_annotations_presort text).map sortNotes

/-! Embedding of `kindle_cleaner.py`: raw-file selection, over an explicit directory
state (the list of regular file names in `RAW_DIR`). -/

/-- Gregorian leap-year rule used by Python's `datetime`. -/
def isLeapYear (y : Nat) : Bool :=
  y % 4 == 0 && (y % 100 != 0 || y % 400 == 0)

/-- Number of days in month `m` of year `y` (proleptic Gregorian). -/
def daysInMonth (y m : Nat) : Nat :=
  if m = 2 then (if isLeapYear y then 29 else 28)
  else if m = 4 ∨ m = 6 ∨ m = 9 ∨ m = 11 then 30
  else 31

/-- Validity of a calendar date as checked by `datetime.strptime(..., "%Y%m%d")`
(`datetime` years run from 1 to 9999). -/
def isValidDate (y m d : Nat) : Bool :=
  decide (1 ≤ y) && decide (y ≤ 9999) && decide (1 ≤ m) && decide (m ≤ 12)
  && decide (1 ≤ d) && decide (d ≤ daysInMonth y m)

/-- The fixed file-name tail of `FILENAME_DATE_PATTERN`. -/
def rawSuffix : List Char := "_kindle_annotations_raw.txt".data

/-- Model of `extract_date_from_filename` of `kindle_cleaner.py`: the name must match
`^(\d{8})_kindle_annotations_raw\.txt$` and the eight digits must parse with
`strptime("%Y%m%d")` (four-digit year, valid month and day); `none` models
the raised `ValueError`.  The date is returned as the number `yyyymmdd`
(this orders exactly like the `datetime` values the source compares). -/
def extract_date_from_filename (name : List Char) : Option Nat :=
  let ds := name.take 8
  if ds.length = 8 ∧ ds.all (·.isDigit) ∧ name.drop 8 = rawSuffix then
    let y := natOfDigits (ds.take 4)
    let m := natOfDigits ((ds.drop 4).take 2)
    let d := natOfDigits (ds.drop 6)
    if isValidDate y m d then some (y * 10000 + m * 100 + d) else none
  else none

/-- Model of `select_and_cleanup_raw_files` of `kindle_cleaner.py`, over an explicit
directory state `dir` (the regular files of `RAW_DIR`, in iteration order).
Files whose name fails `extract_date_from_filename` are skipped; with no
dated file the function raises `FileNotFoundError` (`none`).  Otherwise the
dated files are stably sorted by date, the newest (last) one is selected,
and with `delete_old` every dated file strictly older than the newest date
is unlinked.  Returns the selected file and the remaining directory state. -/
def select_and_cleanup_raw_files (delete_old : Bool) (dir : List (List Char)) :
    Option (List Char × List (List Char)) :=
  let dated := dir.filterMap
    (fun f => (extract_date_from_filename f).map (fun d => (d, f)))
  match (ssortK (fun p => p.1) (fun a b => decide (a < b)) dated).getLast? with
  | none => none
  | some (newestDate, newestFile) =>
    let remaining :=
      if delete_old then
        dir.filter (fun f =>
          match extract_date_from_filename f with
          | none => true
          | some d => decide (newestDate ≤ d))
      else dir
    some (newestFile, remaining)

/-! Embedding of `json_to_notion_page.py`: block chunking. -/

/-- The batching of `append_blocks`: `for i in range(0, len(blocks), 100)`
sends `blocks[i:i + 100]`.  The value is the list of batches in the order
they are PATCHed to the Notion API. -/
def append_blocksF {α : Type} (fuel : Nat) (blocks : List α) : List (List α) :=
  match fuel, blocks with
  | fuel + 1, b :: bs => (b :: bs).take 100 :: append_blocksF fuel ((b :: bs).drop 100)
  | _, _ => []

/-- The batching loop with its fuel instantiated: every iteration consumes
at least one block, so a fuel equal to the number of blocks is never
exhausted and `append_blocks` computes exactly the Python loop. -/
def append_blocks {α : Type} (blocks : List α) : List (List α) :=
  append_blocksF blocks.length blocks

/-! Embedding of `epub_parser.py`: Cocoa timestamps. -/

/-- Days before January 1st of year `y` in the proleptic Gregorian calendar
(`date(y, 1, 1).toordinal() - 1`). -/
def daysBeforeYear (y : Nat) : Nat :=
  let n := y - 1
  n * 365 + n / 4 - n / 100 + n / 400

/-- Days in year `y` before the first day of month `m`. -/
def daysBeforeMonth (y m : Nat) : Nat :=
  (List.range (m - 1)).foldl (fun a i => a + daysInMonth y (i + 1)) 0

/-- Python `date(y, m, d).toordinal()`: days since 0001-01-00. -/
def toOrdinal (y m d : Nat) : Nat :=
  daysBeforeYear y + daysBeforeMonth y m + d

/-- The largest ordinal representable by Python's `datetime`
(`date(9999, 12, 31).toordinal() = 3652059`). -/
def maxOrdinal : Nat := toOrdinal 9999 12 31

/-- A Python `datetime` at whole-second resolution: its proleptic Gregorian
ordinal (`toordinal()`) and the second within the day. -/
structure PyDateTime where
  ordinal : Int
  secondOfDay : Int
deriving DecidableEq, Repr

/-- Python `datetime(y, m, d)` at midnight. -/
def mkPyDateTime (y m d : Nat) : PyDateTime :=
  ⟨(toOrdinal y m d : Int), 0⟩

/-- Python `dt + timedelta(seconds=s)` for an integer number of seconds: floor
div/mod by 86400 normalizes the result, and a result outside the years
1–9999 raises `OverflowError` (`none`).  Lean's `Int` division (`Int.ediv`)
with the positive divisor 86400 is exactly Python's floor `divmod`. -/
def addSeconds (dt : PyDateTime) (s : Int) : Option PyDateTime :=
  let total := dt.ordinal * 86400 + dt.secondOfDay + s
  let o := total / 86400
  if 1 ≤ o ∧ o ≤ (maxOrdinal : Int) then some ⟨o, total % 86400⟩ else none

/-- Total seconds of a `PyDateTime` since 0001-01-00 00:00:00. -/
def totalSeconds (dt : PyDateTime) : Int :=
  dt.ordinal * 86400 + dt.secondOfDay

/-- Model of `cocoa_timestamp_to_datetime` of `epub_parser.py`:
`None` maps to `None`; otherwise the result is
`datetime(2001, 1, 1) + timedelta(seconds=cocoa_ts)` (here for an integer
number of seconds).  In the result, the outer `none` models a raised
`OverflowError`, `some none` is the returned `None`. -/
def cocoa_timestamp_to_datetime (cocoa_ts : Option Int) : Option (Option PyDateTime) :=
  match cocoa_ts with
  | none => some none
  | some s => (addSeconds (mkPyDateTime 2001 1 1) s).map some

/-!  Sample inputs used by the concrete theorems below. -/

/-- The five-line export of the spec's concrete scenario (claim C1). -/
def sampleExportC1 : List Char :=
  ("Deep Work\n- Deine Markierung auf Seite 42 | Position 813-814 | "
    ++ "Hinzugefügt am Donnerstag, 1. Januar 2025 09:00:00\n\n"
    ++ "Focus is the new IQ.\n==========").data

/-!  General lemmas about the stable insertion sort. -/

section SortLemmas

variable {α β : Type} (k : α → β) (lt : β → β → Bool)

theorem mem_insK (x : α) (l : List α) (a : α) :
    a ∈ insK k lt x l ↔ a = x ∨ a ∈ l := by
  induction l with
  | nil => simp [insK]
  | cons y ys ih =>
    simp only [insK]
    split
    · simp only [List.mem_cons, ih]
      tauto
    · simp

theorem mem_ssortK (l : List α) (a : α) : a ∈ ssortK k lt l ↔ a ∈ l := by
  induction l with
  | nil => simp [ssortK]
  | cons x xs ih =>
    show a ∈ insK k lt x (ssortK k lt xs) ↔ _
    rw [mem_insK, ih, List.mem_cons]

theorem insK_ne_nil (x : α) (l : List α) : insK k lt x l ≠ [] := by
  cases l with
  | nil => simp [insK]
  | cons y ys =>
    simp only [insK]
    split <;> simp

theorem ssortK_eq_nil_iff (l : List α) : ssortK k lt l = [] ↔ l = [] := by
  cases l with
  | nil => simp [ssortK]
  | cons x xs => simp [ssortK, insK_ne_nil]

theorem pairwise_insK
    (hasym : ∀ a b, lt a b = true → lt b a = false)
    (htrans : ∀ a b c, lt b a = false → lt c b = false → lt c a = false)
    (x : α) (l : List α)
    (h : l.Pairwise (fun a b => lt (k b) (k a) = false)) :
    (insK k lt x l).Pairwise (fun a b => lt (k b) (k a) = false) := by
  induction l with
  | nil => simp [insK]
  | cons y ys ih =>
    rcases List.pairwise_cons.1 h with ⟨hy, hys⟩
    simp only [insK]
    split
    case isTrue hlt =>
      refine List.pairwise_cons.2 ⟨?_, ih hys⟩
      intro z hz
      rcases (mem_insK k lt x ys z).1 hz with rfl | hz'
      · exact hasym _ _ hlt
      · exact hy z hz'
    case isFalse hge =>
      have hyx : lt (k y) (k x) = false := by
        revert hge
        cases lt (k y) (k x) <;> simp
      refine List.pairwise_cons.2 ⟨?_, List.pairwise_cons.2 ⟨hy, hys⟩⟩
      intro z hz
      rcases List.mem_cons.1 hz with rfl | hz'
      · exact hyx
      · exact htrans _ _ _ hyx (hy z hz')

theorem pairwise_ssortK
    (hasym : ∀ a b, lt a b = true → lt b a = false)
    (htrans : ∀ a b c, lt b a = false → lt c b = false → lt c a = false)
    (l : List α) :
    (ssortK k lt l).Pairwise (fun a b => lt (k b) (k a) = false) := by
  induction l with
  | nil => simp [ssortK]
  | cons x xs ih => exact pairwise_insK k lt hasym htrans x _ ih

theorem filter_insK (p : α → Bool)
    (hp : ∀ a b, p a = true → lt (k b) (k a) = true → p b = false)
    (x : α) (l : List α) :
    (insK k lt x l).filter p = if p x then x :: l.filter p else l.filter p := by
  induction l with
  | nil => cases hx : p x <;> simp [insK, List.filter, hx]
  | cons y ys ih =>
    simp only [insK]
    split
    case isTrue hlt =>
      cases hx : p x with
      | false =>
        simp only [hx, if_neg Bool.false_ne_true]
        cases hy : p y <;> simp [List.filter, hy, ih, hx]
      | true =>
        have hy : p y = false := hp _ _ hx hlt
        simp [List.filter, hy, ih, hx]
    case isFalse hge =>
      cases hx : p x <;> cases hy : p y <;> simp [List.filter, hx, hy]

theorem filter_ssortK (p : α → Bool)
    (hp : ∀ a b, p a = true → lt (k b) (k a) = true → p b = false)
    (l : List α) :
    (ssortK k lt l).filter p = l.filter p := by
  induction l with
  | nil => simp [ssortK]
  | cons x xs ih =>
    simp only [ssortK]
    rw [filter_insK k lt p hp]
    cases hx : p x <;> simp [List.filter, hx, ih]

theorem mem_of_getLast? {γ : Type} :
    ∀ (l : List γ) (m : γ), l.getLast? = some m → m ∈ l := by
  intro l
  induction l with
  | nil => simp
  | cons y ys ih =>
    intro m hm
    cases ys with
    | nil =>
      simp only [List.getLast?_singleton, Option.some.injEq] at hm
      simp [hm]
    | cons z zs =>
      rw [List.getLast?_cons_cons] at hm
      exact List.mem_cons_of_mem _ (ih m hm)

theorem getLast?_max {γ : Type} {R : γ → γ → Prop} (hrefl : ∀ a, R a a) :
    ∀ (l : List γ), l.Pairwise R → ∀ m, l.getLast? = some m → ∀ x ∈ l, R x m := by
  intro l
  induction l with
  | nil => simp
  | cons y ys ih =>
    intro hp m hm x hx
    cases ys with
    | nil =>
      simp only [List.getLast?_singleton, Option.some.injEq] at hm
      simp only [List.mem_singleton] at hx
      subst hm; subst hx; exact hrefl _
    | cons z zs =>
      rw [List.getLast?_cons_cons] at hm
      rcases List.pairwise_cons.1 hp with ⟨hy, hys⟩
      rcases List.mem_cons.1 hx with rfl | hx'
      · exact hy m (mem_of_getLast? _ m hm)
      · exact ih hys m hm x hx'

end SortLemmas

/-!  Lemmas about the insertion-ordered dict `appendNote`. -/

theorem keys_appendNote (g : Grouped) (t : List Char) (e : KindleNote) :
    (appendNote g t e).map Prod.fst =
      if t ∈ g.map Prod.fst then g.map Prod.fst else g.map Prod.fst ++ [t] := by
  induction g with
  | nil => simp [appendNote]
  | cons p rest ih =>
    obtain ⟨t', es⟩ := p
    simp only [appendNote]
    split
    case isTrue h =>
      subst h
      simp
    case isFalse h =>
      by_cases hmem : t ∈ rest.map Prod.fst
      · simp [List.map_cons, ih, hmem, Ne.symm h]
      · simp [List.map_cons, ih, hmem, Ne.symm h]

theorem nodup_keys_appendNote (g : Grouped) (t : List Char) (e : KindleNote)
    (h : (g.map Prod.fst).Nodup) : ((appendNote g t e).map Prod.fst).Nodup := by
  rw [keys_appendNote]
  split
  · exact h
  case isFalse hmem => simp [List.nodup_append, h, hmem]

theorem notes_appendNote (g : Grouped) (t : List Char) (e : KindleNote) :
    ∀ p ∈ appendNote g t e, ∀ x ∈ p.2, x = e ∨ ∃ q ∈ g, x ∈ q.2 := by
  induction g with
  | nil =>
    intro p hp x hx
    simp only [appendNote, List.mem_singleton] at hp
    subst hp
    simp only [List.mem_singleton] at hx
    exact Or.inl hx
  | cons q rest ih =>
    obtain ⟨t', es⟩ := q
    intro p hp x hx
    simp only [appendNote] at hp
    split at hp
    case isTrue h =>
      rcases List.mem_cons.1 hp with rfl | hp'
      · rcases List.mem_append.1 hx with hx' | hx'
        · exact Or.inr ⟨(t', es), List.mem_cons_self _ _, hx'⟩
        · simp only [List.mem_singleton] at hx'
          exact Or.inl hx'
      · exact Or.inr ⟨p, List.mem_cons_of_mem _ hp', hx⟩
    case isFalse h =>
      rcases List.mem_cons.1 hp with rfl | hp'
      · exact Or.inr ⟨(t', es), List.mem_cons_self _ _, hx⟩
      · rcases ih p hp' x hx with h' | ⟨q', hq', hx'⟩
        · exact Or.inl h'
        · exact Or.inr ⟨q', List.mem_cons_of_mem _ hq', hx'⟩

theorem fst_appendNote (g : Grouped) (t : List Char) (e : KindleNote) :
    ∀ p ∈ appendNote g t e, p.1 = t ∨ ∃ q ∈ g, p.1 = q.1 := by
  induction g with
  | nil =>
    intro p hp
    simp only [appendNote, List.mem_singleton] at hp
    subst hp
    exact Or.inl rfl
  | cons q rest ih =>
    obtain ⟨t', es⟩ := q
    intro p hp
    simp only [appendNote] at hp
    split at hp
    case isTrue h =>
      rcases List.mem_cons.1 hp with rfl | hp'
      · exact Or.inr ⟨(t', es), List.mem_cons_self _ _, rfl⟩
      · exact Or.inr ⟨p, List.mem_cons_of_mem _ hp', rfl⟩
    case isFalse h =>
      rcases List.mem_cons.1 hp with rfl | hp'
      · exact Or.inr ⟨(t', es), List.mem_cons_self _ _, rfl⟩
      · rcases ih p hp' with h' | ⟨q', hq', h'⟩
        · exact Or.inl h'
        · exact Or.inr ⟨q', List.mem_cons_of_mem _ hq', h'⟩

theorem findNotes_of_nodup (g : Grouped) (hnd : (g.map Prod.fst).Nodup)
    (p : List Char × List KindleNote) (hp : p ∈ g) : findNotes g p.1 = p.2 := by
  induction g with
  | nil => cases hp
  | cons q rest ih =>
    obtain ⟨t', es⟩ := q
    simp only [List.map_cons, List.nodup_cons] at hnd
    rcases List.mem_cons.1 hp with rfl | hp'
    · simp [findNotes]
    · have hne : t' ≠ p.1 := by
        intro hEq
        exact hnd.1 (hEq ▸ List.mem_map_of_mem Prod.fst hp')
      simp only [findNotes, if_neg hne]
      exact ih hnd.2 hp'

/-!  Invariant preservation through the record-scanning loop. -/

theorem scanRecordsF_preserve (P : Grouped → Prop)
    (happ : ∀ g t e, P g → t ≠ [] → e.text ≠ [] → P (appendNote g t e)) :
    ∀ (fuel : Nat) (l : List (List Char)) (g g' : Grouped),
      P g → scanRecordsF fuel g l = some g' → P g' := by
  intro fuel
  induction fuel with
  | zero =>
    intro l g g' hP h
    simp only [scanRecordsF] at h
    cases h
    exact hP
  | succ n ih =>
    intro l g g' hP h
    match l with
    | [] =>
      simp only [scanRecordsF] at h
      cases h
      exact hP
    | [a] =>
      simp only [scanRecordsF] at h
      cases h
      exact hP
    | [a, b] =>
      simp only [scanRecordsF] at h
      cases h
      exact hP
    | l0 :: l1 :: l2 :: rest =>
      simp only [scanRecordsF] at h
      split at h
      · exact ih _ _ _ hP h
      case isFalse hguard =>
        split at h
        case h_1 => cases h
        case h_2 timestamp heq =>
          have htitle : normalize_title l0 ≠ [] := by
            intro hEq
            exact hguard (Or.inl hEq)
          split at h
          case isTrue htext => exact ih _ _ _ hP h
          case isFalse htext => exact ih _ _ _ (happ _ _ _ hP htitle htext) h

/-!  Order facts about the page-key comparison. -/

theorem ltKey_irrefl (a : Option Int) : ltKey a a = false := by
  cases a <;> simp [ltKey]

theorem ltKey_asymm (a b : Option Int) (h : ltKey a b = true) : ltKey b a = false := by
  cases a <;> cases b <;> simp_all [ltKey] <;> omega

theorem ltKey_le_trans (a b c : Option Int)
    (h1 : ltKey b a = false) (h2 : ltKey c b = false) : ltKey c a = false := by
  cases a <;> cases b <;> cases c <;> simp_all [ltKey] <;> omega

/-!  Facts about `stripPy` and `normalize_title`. -/

theorem rstripPy_cons (c : Char) (rest : List Char) (hc : pyIsSpace c = false) :
    rstripPy (c :: rest) = c :: rstripPy rest := by
  unfold rstripPy
  rw [List.reverse_cons, List.dropWhile_append]
  split
  case isTrue hEmpty =>
    simp only [List.isEmpty_iff] at hEmpty
    simp [List.dropWhile_cons, hc, hEmpty]
  case isFalse hEmpty =>
    simp only [List.isEmpty_iff] at hEmpty
    simp [List.dropWhile_cons, hc]

theorem head?_stripPy_cons (c : Char) (rest : List Char) (hc : pyIsSpace c = false) :
    (stripPy (c :: rest)).head? = some c := by
  unfold stripPy lstripPy
  rw [rstripPy_cons c rest hc]
  simp [List.dropWhile_cons, hc]

theorem normalize_title_of_head_not_bom (A : List Char)
    (h : (stripPy A).head? ≠ some '﻿') :
    normalize_title A = stripPy A := by
  cases A with
  | nil => rfl
  | cons c rest =>
    by_cases hbom : c = '﻿'
    · subst hbom
      have : pyIsSpace '﻿' = false := by decide
      exact absurd (head?_stripPy_cons _ rest this) h
    · unfold normalize_title
      rw [List.dropWhile_cons, if_neg (by simp [hbom])]

/-!  Claim theorems. -/

/-- C5: During body extraction by `parse_kindle_annotations` (the inner
while loop, `bodyRun`), the run consumes exactly the lines up to the first
blank line or the end of input; within the run, stripped lines equal to the
separator, equal to the record's title, or starting with the metadata
prefix are skipped without terminating the body and never appear in the
collected text, while every other non-blank line is kept (the collected
lines are then newline-joined by the caller). -/
theorem c5_body_extraction (title : List Char) (l : List (List Char)) :
    (bodyRun title l).2 ≤ l.length
    ∧ (∀ x ∈ l.take (bodyRun title l).2, stripPy x ≠ [])
    ∧ (∀ h t, l.drop (bodyRun title l).2 = h :: t → stripPy h = [])
    ∧ (bodyRun title l).1
        = ((l.take (bodyRun title l).2).map stripPy).filter
            (fun s => !(isNoise title s)) := by
  induction l with
  | nil =>
    refine ⟨by simp [bodyRun], by simp [bodyRun], ?_, by simp [bodyRun]⟩
    intro h t hEq
    simp [bodyRun] at hEq
  | cons x xs ih =>
    by_cases hs : stripPy x = []
    · refine ⟨by simp [bodyRun, hs], by simp [bodyRun, hs], ?_, by simp [bodyRun, hs]⟩
      intro h t hEq
      simp only [bodyRun, hs, if_pos rfl, List.drop_zero] at hEq
      cases hEq
      exact hs
    · by_cases hn : isNoise title (stripPy x) = true
      · have h1 : (bodyRun title (x :: xs)).1 = (bodyRun title xs).1 := by
          simp [bodyRun, hs, hn]
        have h2 : (bodyRun title (x :: xs)).2 = (bodyRun title xs).2 + 1 := by
          simp [bodyRun, hs, hn]
        refine ⟨?_, ?_, ?_, ?_⟩
        · rw [h2]; simpa using Nat.succ_le_succ ih.1
        · rw [h2]
          intro y hy
          rw [List.take_succ_cons] at hy
          rcases List.mem_cons.1 hy with rfl | hy'
          · exact hs
          · exact ih.2.1 y hy'
        · rw [h2]
          intro h t hEq
          rw [List.drop_succ_cons] at hEq
          exact ih.2.2.1 h t hEq
        · rw [h1, h2, List.take_succ_cons, List.map_cons, List.filter_cons,
            ih.2.2.2]
          simp [hn]
      · have hnf : isNoise title (stripPy x) = false := by
          revert hn; cases isNoise title (stripPy x) <;> simp
        have h1 : (bodyRun title (x :: xs)).1 = stripPy x :: (bodyRun title xs).1 := by
          simp [bodyRun, hs, hnf]
        have h2 : (bodyRun title (x :: xs)).2 = (bodyRun title xs).2 + 1 := by
          simp [bodyRun, hs, hnf]
        refine ⟨?_, ?_, ?_, ?_⟩
        · rw [h2]; simpa using Nat.succ_le_succ ih.1
        · rw [h2]
          intro y hy
          rw [List.take_succ_cons] at hy
          rcases List.mem_cons.1 hy with rfl | hy'
          · exact hs
          · exact ih.2.1 y hy'
        · rw [h2]
          intro h t hEq
          rw [List.drop_succ_cons] at hEq
          exact ih.2.2.1 h t hEq
        · rw [h1, h2, List.take_succ_cons, List.map_cons, List.filter_cons,
            ih.2.2.2]
          simp [hnf]

/-- Witness for C5 at a concrete body region: `Alpha`, a separator line and
a second metadata line are followed by a blank line; extraction keeps
exactly `Alpha` and stops after three consumed lines. -/
theorem c5_body_extraction_witness :
    (bodyRun ("T".data)
        ["Alpha".data, "==========".data, "- Deine Markierung x".data, "  ".data]).1
      = ["Alpha".data] := by
  rw [(c5_body_extraction ("T".data)
        ["Alpha".data, "==========".data, "- Deine Markierung x".data, "  ".data]).2.2.2]
  decide

/-- C1 (documented-intent divergence): evaluating `parse_kindle_annotations`
on the spec's five-line scenario.  The parser groups, pages and body text as
claimed, but the timestamp comes out as `"2025-01-1.T09:00:00"`: the day
token split out of `"1. Januar 2025 09:00:00"` is `"1."`, whose trailing
period survives and defeats `zfill(2)`, contradicting the claimed (and
docstring's) `"2025-01-01T09:00:00"`. -/
theorem c1_parse_concrete_eval :
    parse_kindle_annotations sampleExportC1
      = some [("Deep Work".data,
          [⟨"Focus is the new IQ.".data, some ("42".data),
            some ("2025-01-1.T09:00:00".data)⟩])] := by
  decide

/-- C2 (documented-intent divergence): `normalize_timestamp` on the
docstring's own example input returns `"2025-12-25.T12:01:07"`, not the
documented `"2025-12-25T12:01:07"`: the day group `"25."` keeps its period,
so the output neither has the `YYYY-MM-DDTHH:MM:SS` shape nor a zero-padded
two-digit day. -/
theorem c2_normalize_timestamp_eval :
    normalize_timestamp ("Donnerstag, 25. Dezember 2025 12:01:07".data)
      = some ("2025-12-25.T12:01:07".data) := by
  decide

/-- C3: `normalize_timestamp` raises (returns `none`) whenever the group
destructuring after the first comma fails, whenever the month name is not
one of the twelve German month names, and whenever the "year time" group
has no further space to split on; an unrecognized month never produces a
silently wrong date. -/
theorem c3_normalize_timestamp_hard_failure (raw : List Char)
    (h : tsGroups raw = none
      ∨ ∃ d m yt, tsGroups raw = some (d, m, yt)
          ∧ (monthLookup m = none ∨ (pySplit1 ' ' yt).length ≠ 2)) :
    normalize_timestamp raw = none := by
  unfold normalize_timestamp
  rcases h with h | ⟨d, m, yt, hg, hbad⟩
  · rw [h]
  · rw [hg]
    dsimp only
    cases h2 : pySplit1 ' ' yt with
    | nil => rfl
    | cons a tl =>
      cases tl with
      | nil => rfl
      | cons b tl2 =>
        cases tl2 with
        | nil =>
          rcases hbad with hm | hlen
          · simp [hm]
          · rw [h2] at hlen
            simp at hlen
        | cons e tl3 => rfl

/-- Witness for C3: a timestamp with the non-German month name `"Foo"`
raises rather than returning a value. -/
theorem c3_witness :
    normalize_timestamp ("Donnerstag, 25. Foo 2025 12:01:07".data) = none :=
  c3_normalize_timestamp_hard_failure _
    (Or.inr ⟨"25.".data, "Foo".data, "2025 12:01:07".data, by decide,
      Or.inl (by decide)⟩)

/-- Sample export for C4/C6 witnesses: two records for the same title with
pages 7 and 3, in that order in the source text. -/
def sampleExportC4 : List Char :=
  ("T\n- Deine Markierung auf Seite 7\n\nSeven\n\n"
    ++ "T\n- Deine Markierung auf Seite 3\n\nThree\n").data

/-- C6: every note in every list of a mapping returned by
`parse_kindle_annotations` has a non-empty `text`; a record whose
reconstructed body strips to the empty string is silently skipped, so it
never contributes a note. -/
theorem c6_nonempty_text (t : List Char) (g : Grouped)
    (h : parse_kindle_annotations t = some g) :
    ∀ p ∈ g, ∀ x ∈ p.2, x.text ≠ [] := by
  unfold parse_kindle_annotations at h
  cases hps : parse_kindle_annotations_presort t with
  | none => rw [hps] at h; cases h
  | some g0 =>
    rw [hps] at h
    simp only [Option.map_some'] at h
    cases h
    have h0 : ∀ p ∈ g0, ∀ x ∈ p.2, x.text ≠ [] := by
      unfold parse_kindle_annotations_presort scanRecords at hps
      refine scanRecordsF_preserve (fun g => ∀ p ∈ g, ∀ x ∈ p.2, x.text ≠ [])
        ?_ _ _ [] g0 (by simp) hps
      intro g ti e hP hti he p hp x hx
      rcases notes_appendNote g ti e p hp x hx with rfl | ⟨q, hq, hx'⟩
      · exact he
      · exact hP q hq x hx'
    intro p hp x hx
    rcases List.mem_map.1 hp with ⟨p0, hp0, rfl⟩
    exact h0 p0 hp0 x ((mem_ssortK _ _ p0.2 x).1 hx)

/-- Witness for C6: the single note parsed from the C4 sample export with
page 3 has non-empty text. -/
theorem c6_witness :
    (⟨"Three".data, some ("3".data), none⟩ : KindleNote).text ≠ [] := by
  refine c6_nonempty_text sampleExportC4
    [("T".data,
      [⟨"Three".data, some ("3".data), none⟩, ⟨"Seven".data, some ("7".data), none⟩])]
    (by decide)
    ("T".data,
      [⟨"Three".data, some ("3".data), none⟩, ⟨"Seven".data, some ("7".data), none⟩])
    (by decide)
    ⟨"Three".data, some ("3".data), none⟩ (by decide)

/-- C4: in every mapping returned by `parse_kindle_annotations`, each
title's notes are sorted ascending by the page sort key (missing, empty or
non-numeric pages count as `float("inf")`), and the sort is stable: for
every key value, the notes with that key appear in exactly their encounter
order (their order in the pre-sort grouping). -/
theorem c4_page_sorted_stable (t : List Char) (g : Grouped)
    (h : parse_kindle_annotations t = some g) :
    ∀ p ∈ g,
      p.2.Pairwise (fun a b =>
        ltKey (page_sort_key b.page) (page_sort_key a.page) = false)
      ∧ ∀ c : Option Int,
          p.2.filter (fun e => page_sort_key e.page == c)
            = (findNotes ((parse_kindle_annotations_presort t).getD []) p.1).filter
                (fun e => page_sort_key e.page == c) := by
  unfold parse_kindle_annotations at h
  cases hps : parse_kindle_annotations_presort t with
  | none => rw [hps] at h; cases h
  | some g0 =>
    rw [hps] at h
    simp only [Option.map_some'] at h
    cases h
    have hnd : (g0.map Prod.fst).Nodup := by
      unfold parse_kindle_annotations_presort scanRecords at hps
      refine scanRecordsF_preserve (fun g => (g.map Prod.fst).Nodup)
        ?_ _ _ [] g0 (by simp) hps
      intro g ti e hP hti he
      exact nodup_keys_appendNote g ti e hP
    intro p hp
    rcases List.mem_map.1 hp with ⟨p0, hp0, rfl⟩
    refine ⟨?_, ?_⟩
    · exact pairwise_ssortK _ ltKey ltKey_asymm ltKey_le_trans p0.2
    · intro c
      simp only [Option.getD_some]
      rw [findNotes_of_nodup g0 hnd p0 hp0]
      refine filter_ssortK _ ltKey (fun e => page_sort_key e.page == c) ?_ p0.2
      intro a b ha hlt
      have hac : page_sort_key a.page = c := by
        exact eq_of_beq ha
      cases hb : (page_sort_key b.page == c) with
      | false => exact hb
      | true =>
        have hbc : page_sort_key b.page = c := eq_of_beq hb
        rw [hac, ← hbc] at hlt
        rw [ltKey_irrefl] at hlt
        cases hlt

/-- Witness for C4: the sample export lists pages 7 then 3 for the same
title; the parsed result holds them in ascending page order 3, 7. -/
theorem c4_witness :
    ([⟨"Three".data, some ("3".data), none⟩,
      ⟨"Seven".data, some ("7".data), none⟩] : List KindleNote).Pairwise
        (fun a b => ltKey (page_sort_key b.page) (page_sort_key a.page) = false) := by
  have h := c4_page_sorted_stable sampleExportC4
    [("T".data,
      [⟨"Three".data, some ("3".data), none⟩, ⟨"Seven".data, some ("7".data), none⟩])]
    (by decide)
    ("T".data,
      [⟨"Three".data, some ("3".data), none⟩, ⟨"Seven".data, some ("7".data), none⟩])
    (by decide)
  exact h.1

/-- Sample export for the C10 counterexample: two records whose title lines
are `"﻿Book"` and `" ﻿Book"`, differing only in leading
whitespace. -/
def sampleExportC10 : List Char :=
  ("﻿Book\n- Deine Markierung auf Seite 3\n\nAlpha\n\n"
    ++ " ﻿Book\n- Deine Markierung auf Seite 4\n\nBeta\n").data

/-- C10 counterexample: the claim says two records whose title lines differ
only in leading/trailing whitespace land under the same output key.  The
two title lines of `sampleExportC10` strip to the same string (they differ
only in a leading space), yet the parse yields two distinct keys, because
`lstrip("﻿")` runs before `strip()` and removes the BOM only when it
is the very first character. -/
theorem c10_counterexample :
    stripPy (" ﻿Book".data) = stripPy ("﻿Book".data)
    ∧ parse_kindle_annotations sampleExportC10
        = some [("Book".data, [⟨"Alpha".data, some ("3".data), none⟩]),
                ("﻿Book".data, [⟨"Beta".data, some ("4".data), none⟩])]
    ∧ ("Book".data : List Char) ≠ "﻿Book".data := by
  refine ⟨by decide, by decide, by decide⟩

/-- C10 (amended): `parse_kindle_annotations` groups records by the title
line after removing all leading U+FEFF characters and then surrounding
whitespace.  Title lines that differ only in leading BOM characters land
under the same key; title lines that differ only in leading/trailing
whitespace land under the same key provided the shared stripped title does
not begin with a BOM character.  Every output key is non-empty, keys are
pairwise distinct, and a new key is appended at the end of the mapping when
its title is first emitted (so keys appear in first-emission order). -/
theorem c10_title_grouping_amended :
    (∀ A B : List Char,
        A.dropWhile (fun c => c = '﻿') = B.dropWhile (fun c => c = '﻿') →
        normalize_title A = normalize_title B)
    ∧ (∀ A B : List Char, stripPy A = stripPy B →
        (stripPy A).head? ≠ some '﻿' →
        normalize_title A = normalize_title B)
    ∧ (∀ t g, parse_kindle_annotations t = some g → ∀ p ∈ g, p.1 ≠ [])
    ∧ (∀ t g, parse_kindle_annotations t = some g → (g.map Prod.fst).Nodup)
    ∧ (∀ (g : Grouped) (ti : List Char) (e : KindleNote),
        (appendNote g ti e).map Prod.fst =
          if ti ∈ g.map Prod.fst then g.map Prod.fst
          else g.map Prod.fst ++ [ti]) := by
  refine ⟨?_, ?_, ?_, ?_, keys_appendNote⟩
  · intro A B hEq
    unfold normalize_title
    rw [hEq]
  · intro A B hstrip hbom
    rw [normalize_title_of_head_not_bom A hbom, hstrip]
    rw [normalize_title_of_head_not_bom B (by rw [← hstrip]; exact hbom)]
  · intro t g h
    unfold parse_kindle_annotations at h
    cases hps : parse_kindle_annotations_presort t with
    | none => rw [hps] at h; cases h
    | some g0 =>
      rw [hps] at h
      simp only [Option.map_some'] at h
      cases h
      have h0 : ∀ p ∈ g0, p.1 ≠ [] := by
        unfold parse_kindle_annotations_presort scanRecords at hps
        refine scanRecordsF_preserve (fun g => ∀ p ∈ g, p.1 ≠ [])
          ?_ _ _ [] g0 (by simp) hps
        intro g ti e hP hti he p hp
        rcases fst_appendNote g ti e p hp with h' | ⟨q, hq, h'⟩
        · rw [h']; exact hti
        · rw [h']; exact hP q hq
      intro p hp
      rcases List.mem_map.1 hp with ⟨p0, hp0, rfl⟩
      exact h0 p0 hp0
  · intro t g h
    unfold parse_kindle_annotations at h
    cases hps : parse_kindle_annotations_presort t with
    | none => rw [hps] at h; cases h
    | some g0 =>
      rw [hps] at h
      simp only [Option.map_some'] at h
      cases h
      have h0 : (g0.map Prod.fst).Nodup := by
        unfold parse_kindle_annotations_presort scanRecords at hps
        refine scanRecordsF_preserve (fun g => (g.map Prod.fst).Nodup)
          ?_ _ _ [] g0 (by simp) hps
        intro g ti e hP hti he
        exact nodup_keys_appendNote g ti e hP
      have hkeys : (sortNotes g0).map Prod.fst = g0.map Prod.fst := by
        unfold sortNotes
        rw [List.map_map]
        rfl
      rw [hkeys]
      exact h0

/-- Witness for C10: a title line with two leading BOMs and one with a
single leading BOM normalize alike, and titles differing only in
surrounding whitespace (with no BOM after stripping) normalize alike. -/
theorem c10_witness :
    normalize_title ("﻿﻿Deep Work".data) = normalize_title ("﻿Deep Work".data)
    ∧ normalize_title ("  Tiefe Arbeit ".data) = normalize_title ("Tiefe Arbeit".data) :=
  ⟨c10_title_grouping_amended.1 _ _ (by decide),
   c10_title_grouping_amended.2.1 _ _ (by decide) (by decide)⟩

/-- C7: over an explicit directory state, `select_and_cleanup_raw_files`
raises `FileNotFoundError` exactly when no file name matches
`<YYYYMMDD>_kindle_annotations_raw.txt` (with a `strptime`-valid date);
otherwise it returns a file bearing the maximal date, and with
`delete_old = True` exactly the matching files with a strictly older date
are unlinked — non-matching files and files sharing the newest date stay,
in their original order.  With `delete_old = False` nothing is deleted. -/
theorem c7_select_and_cleanup (dir : List (List Char)) :
    (select_and_cleanup_raw_files true dir = none ↔
      ∀ f ∈ dir, extract_date_from_filename f = none)
    ∧ (∀ nf rem, select_and_cleanup_raw_files true dir = some (nf, rem) →
        ∃ nd, extract_date_from_filename nf = some nd ∧ nf ∈ dir
          ∧ (∀ f ∈ dir, ∀ d, extract_date_from_filename f = some d → d ≤ nd)
          ∧ rem = dir.filter (fun f =>
              match extract_date_from_filename f with
              | none => true
              | some d => decide (nd ≤ d)))
    ∧ (∀ nf rem, select_and_cleanup_raw_files false dir = some (nf, rem) →
        rem = dir) := by
  have hasym : ∀ a b : Nat, decide (a < b) = true → decide (b < a) = false := by
    intro a b h
    simp only [decide_eq_true_eq] at h
    simp only [decide_eq_false_iff_not]
    omega
  have htrans : ∀ a b c : Nat, decide (b < a) = false → decide (c < b) = false →
      decide (c < a) = false := by
    intro a b c h1 h2
    simp only [decide_eq_false_iff_not] at h1 h2 ⊢
    omega
  have hrefl : ∀ a : Nat × List Char, decide (a.1 < a.1) = false := by
    intro a
    simp
  refine ⟨⟨?_, ?_⟩, ?_, ?_⟩
  · intro h f hf
    by_contra hne
    rcases Option.ne_none_iff_exists'.1 hne with ⟨d, hd⟩
    have hmem : (d, f) ∈ dir.filterMap
        (fun f => (extract_date_from_filename f).map (fun d => (d, f))) :=
      List.mem_filterMap.2 ⟨f, hf, by rw [hd]; rfl⟩
    simp only [select_and_cleanup_raw_files] at h
    split at h
    case h_1 heq =>
      rw [List.getLast?_eq_none_iff, ssortK_eq_nil_iff] at heq
      rw [heq] at hmem
      cases hmem
    case h_2 => cases h
  · intro hall
    simp only [select_and_cleanup_raw_files]
    split
    case h_1 => rfl
    case h_2 nd nf heq =>
      exfalso
      have hmem := (mem_ssortK (fun p : Nat × List Char => p.1)
        (fun a b => decide (a < b)) _ _).1 (mem_of_getLast? _ _ heq)
      rcases List.mem_filterMap.1 hmem with ⟨f, hf, hmap⟩
      rcases Option.map_eq_some'.1 hmap with ⟨d, hd, _⟩
      rw [hall f hf] at hd
      cases hd
  · intro nf rem h
    simp only [select_and_cleanup_raw_files] at h
    split at h
    case h_1 => cases h
    case h_2 nd' nf' heq =>
      simp only [if_true, Option.some.injEq, Prod.mk.injEq] at h
      obtain ⟨rfl, rfl⟩ := h
      have hmem := (mem_ssortK (fun p : Nat × List Char => p.1)
        (fun a b => decide (a < b)) _ _).1 (mem_of_getLast? _ _ heq)
      rcases List.mem_filterMap.1 hmem with ⟨f, hf, hmap⟩
      rcases Option.map_eq_some'.1 hmap with ⟨d, hd, hpair⟩
      have hfd : f = nf' := congrArg Prod.snd hpair
      have hdd : d = nd' := congrArg Prod.fst hpair
      subst hfd
      subst hdd
      refine ⟨d, hd, hf, ?_, rfl⟩
      intro f2 hf2 d2 hd2
      have hmem2 : (d2, f2) ∈ dir.filterMap
          (fun f => (extract_date_from_filename f).map (fun d => (d, f))) :=
        List.mem_filterMap.2 ⟨f2, hf2, by rw [hd2]; rfl⟩
      have hpw := pairwise_ssortK (fun p : Nat × List Char => p.1)
        (fun a b => decide (a < b)) hasym htrans
        (dir.filterMap (fun f => (extract_date_from_filename f).map (fun d => (d, f))))
      have hR := getLast?_max hrefl _ hpw _ heq (d2, f2)
        ((mem_ssortK (fun p : Nat × List Char => p.1)
          (fun a b => decide (a < b)) _ _).2 hmem2)
      simp only [decide_eq_false_iff_not] at hR
      omega
  · intro nf rem h
    simp only [select_and_cleanup_raw_files] at h
    split at h
    case h_1 => cases h
    case h_2 nd' nf' heq =>
      simp only [if_false, Option.some.injEq, Prod.mk.injEq] at h
      exact h.2.symm

/-- Witness for C7 at a concrete directory: the selected file is a member
of the directory. -/
theorem c7_witness :
    ("20250203_kindle_annotations_raw.txt".data : List Char) ∈
      ["20250101_kindle_annotations_raw.txt".data, "junk.txt".data,
       "20250203_kindle_annotations_raw.txt".data] := by
  obtain ⟨nd, h1, h2, h3, h4⟩ :=
    (c7_select_and_cleanup
      ["20250101_kindle_annotations_raw.txt".data, "junk.txt".data,
       "20250203_kindle_annotations_raw.txt".data]).2.1
      ("20250203_kindle_annotations_raw.txt".data)
      ["junk.txt".data, "20250203_kindle_annotations_raw.txt".data]
      (by decide)
  exact h2

/-- Running `append_blocksF` on an empty block list yields no batch, for any fuel. -/
theorem append_blocksF_nil {α : Type} (fuel : Nat) :
    append_blocksF fuel ([] : List α) = [] := by
  cases fuel <;> rfl

/-- Fuel-generic form of the C8 batching facts. -/
theorem append_blocksF_spec {α : Type} :
    ∀ (fuel : Nat) (blocks : List α), blocks.length ≤ fuel →
      (append_blocksF fuel blocks).flatten = blocks
      ∧ (∀ b ∈ append_blocksF fuel blocks, b.length ≤ 100 ∧ b ≠ [])
      ∧ (∀ b ∈ (append_blocksF fuel blocks).dropLast, b.length = 100) := by
  intro fuel
  induction fuel with
  | zero =>
    intro blocks h
    cases blocks with
    | nil => simp [append_blocksF]
    | cons b bs => simp at h
  | succ n ih =>
    intro blocks h
    cases blocks with
    | nil => simp [append_blocksF]
    | cons b bs =>
      have hlen : ((b :: bs).drop 100).length ≤ n := by
        simp only [List.length_drop, List.length_cons] at *
        omega
      obtain ⟨ih1, ih2, ih3⟩ := ih _ hlen
      refine ⟨?_, ?_, ?_⟩
      · simp only [append_blocksF, List.flatten_cons]
        rw [ih1, List.take_append_drop]
      · intro x hx
        simp only [append_blocksF, List.mem_cons] at hx
        rcases hx with rfl | hx'
        · constructor
          · simpa using Nat.min_le_left 100 (b :: bs).length
          · simp
        · exact ih2 x hx'
      · intro x hx
        cases hrec : append_blocksF n ((b :: bs).drop 100) with
        | nil =>
          simp only [append_blocksF, hrec] at hx
          simp at hx
        | cons y ys =>
          simp only [append_blocksF, hrec, List.dropLast_cons₂, List.mem_cons] at hx
          rcases hx with rfl | hx'
          · have hne : (b :: bs).drop 100 ≠ [] := by
              intro h0
              rw [h0, append_blocksF_nil] at hrec
              cases hrec
            have hgt : 100 < (b :: bs).length := by
              by_contra hle
              exact hne (List.drop_eq_nil_of_le (by omega))
            rw [List.length_take]
            simp only [List.length_cons] at hgt ⊢
            omega
          · rw [hrec] at ih3
            exact ih3 x hx'

/-- C8: `append_blocks` partitions the block list into consecutive batches,
each of at most 100 blocks and non-empty, with every batch except possibly
the last holding exactly 100; the concatenation of the batches in send
order is the original list, so every block is sent exactly once. -/
theorem c8_append_blocks_batches {α : Type} (blocks : List α) :
    (append_blocks blocks).flatten = blocks
    ∧ (∀ b ∈ append_blocks blocks, b.length ≤ 100 ∧ b ≠ [])
    ∧ (∀ b ∈ (append_blocks blocks).dropLast, b.length = 100) :=
  append_blocksF_spec blocks.length blocks (Nat.le_refl _)

/-- C9 counterexample: the claim promises a returned datetime for every
number of seconds, with no failure path; but 300000000000 seconds past
2001-01-01 lies beyond year 9999, so the addition raises `OverflowError`
instead of returning a value. -/
theorem c9_counterexample :
    cocoa_timestamp_to_datetime (some 300000000000) = none := by
  decide

/-- C9 (amended): `cocoa_timestamp_to_datetime` maps `None` to `None`; for
an integer number of seconds `s`, whenever it returns a datetime, that
datetime is exactly the Cocoa epoch `datetime(2001, 1, 1)` plus `s`
seconds (equal total seconds, with a normalized second-of-day), and it does
return one whenever the sum lies inside the representable `datetime` range
(ordinals 1 to 3652059, i.e. years 1–9999); outside that range the addition
raises `OverflowError`. -/
theorem c9_cocoa_epoch_amended :
    cocoa_timestamp_to_datetime none = some none
    ∧ (∀ (s : Int) (dt : PyDateTime),
        cocoa_timestamp_to_datetime (some s) = some (some dt) →
          totalSeconds dt = totalSeconds (mkPyDateTime 2001 1 1) + s
          ∧ 0 ≤ dt.secondOfDay ∧ dt.secondOfDay < 86400
          ∧ 1 ≤ dt.ordinal ∧ dt.ordinal ≤ (maxOrdinal : Int))
    ∧ (∀ s : Int,
        86400 ≤ totalSeconds (mkPyDateTime 2001 1 1) + s →
        totalSeconds (mkPyDateTime 2001 1 1) + s < ((maxOrdinal : Int) + 1) * 86400 →
        ∃ dt, cocoa_timestamp_to_datetime (some s) = some (some dt)) := by
  refine ⟨rfl, ?_, ?_⟩
  · intro s dt h
    simp only [cocoa_timestamp_to_datetime, addSeconds] at h
    split at h
    case isTrue hrange =>
      simp only [Option.map_some', Option.some.injEq] at h
      cases h
      have hdm := Int.ediv_add_emod
        ((mkPyDateTime 2001 1 1).ordinal * 86400 + (mkPyDateTime 2001 1 1).secondOfDay + s)
        86400
      have hnn := Int.emod_nonneg
        ((mkPyDateTime 2001 1 1).ordinal * 86400 + (mkPyDateTime 2001 1 1).secondOfDay + s)
        (by norm_num : (86400 : Int) ≠ 0)
      have hlt := Int.emod_lt_of_pos
        ((mkPyDateTime 2001 1 1).ordinal * 86400 + (mkPyDateTime 2001 1 1).secondOfDay + s)
        (by norm_num : (0 : Int) < 86400)
      refine ⟨?_, hnn, hlt, hrange.1, hrange.2⟩
      simp only [totalSeconds]
      omega
    case isFalse => simp at h
  · intro s h1 h2
    refine ⟨⟨(totalSeconds (mkPyDateTime 2001 1 1) + s) / 86400,
             (totalSeconds (mkPyDateTime 2001 1 1) + s) % 86400⟩, ?_⟩
    simp only [cocoa_timestamp_to_datetime, addSeconds]
    have hdm := Int.ediv_add_emod (totalSeconds (mkPyDateTime 2001 1 1) + s) 86400
    have hnn := Int.emod_nonneg (totalSeconds (mkPyDateTime 2001 1 1) + s)
      (by norm_num : (86400 : Int) ≠ 0)
    have hlt := Int.emod_lt_of_pos (totalSeconds (mkPyDateTime 2001 1 1) + s)
      (by norm_num : (0 : Int) < 86400)
    rw [if_pos]
    · simp only [totalSeconds] at *
      rfl
    · constructor
      · simp only [totalSeconds] at *
        omega
      · simp only [totalSeconds] at *
        omega

/-- Witness for C9: one day (86400 seconds) past the Cocoa epoch is a
datetime whose total seconds are the epoch's plus 86400. -/
theorem c9_witness :
    totalSeconds ⟨730487, 0⟩ = totalSeconds (mkPyDateTime 2001 1 1) + 86400
    ∧ 0 ≤ (⟨730487, 0⟩ : PyDateTime).secondOfDay
    ∧ (⟨730487, 0⟩ : PyDateTime).secondOfDay < 86400
    ∧ 1 ≤ (⟨730487, 0⟩ : PyDateTime).ordinal
    ∧ (⟨730487, 0⟩ : PyDateTime).ordinal ≤ (maxOrdinal : Int) :=
  c9_cocoa_epoch_amended.2.1 86400 ⟨730487, 0⟩ (by decide)

/-- Witness for C8: re-concatenating the batches of a 250-block list gives
back the list. -/
theorem c8_witness :
    (append_blocks (List.range 250)).flatten = List.range 250 :=
  (c8_append_blocks_batches (List.range 250)).1
